import Mathlib

/-!
Verification development for the `gitmt` CLI (a git multi-account manager).

The repository holds two variants of the CLI entry point:
* `src/unnamed/part_001` — the variant with a per-identity GitHub `alias`
  and SSH-config stanza management (namespace `PartOne` below);
* `src/bin/gitmt.js` — the variant with a `globalConfig` snapshot of the
  pre-existing global git identity (namespace `BinMain` below).

Strings are modelled as `List Char`; the in-memory registry (`config`) is a
structure; each CLI action is a pure function from the registry plus the
relevant parts of the outside world (SSH config file contents, prompt
answers, file-existence facts, the global git identity) to a result record
that carries the new state, the writes performed, and the console output.
External collaborators (`ssh-keygen`, `git config`, prompts, `fs`) are
modelled by their documented contracts; their invocations are recorded as
trace entries.
-/

set_option maxRecDepth 10000

namespace Gitmt

/-- JS word-character class `[A-Za-z0-9_]`, the `\w` of the removal regex in
`updateSSHConfig` (src/unnamed/part_001 line 39). -/
def wordChar (c : Char) : Bool := c.isAlpha || c.isDigit || c = '_'

/-- ASCII whitespace as trimmed by JS `String.prototype.trim` and skipped by
`parseInt` (space, tab, newline, carriage return, vertical tab, form feed). -/
def isWS (c : Char) : Bool :=
  c = ' ' || c = '\t' || c = '\n' || c = '\r' || c = '\x0b' || c = '\x0c'

/-- `String.prototype.trim`: drop whitespace from both ends. -/
def trimL (s : List Char) : List Char :=
  ((s.dropWhile isWS).reverse.dropWhile isWS).reverse

/-- Value of a char as a digit in the given radix (10 or 16 here), if any;
works off the code point (48-57 are the decimal digits, 97-102 and 65-70 the
hex letters). -/
def digitVal (radix : Nat) (c : Char) : Option Nat :=
  let n := c.toNat
  let v : Nat :=
    if 48 ≤ n && n ≤ 57 then n - 48
    else if 97 ≤ n && n ≤ 102 then n - 87
    else if 65 ≤ n && n ≤ 70 then n - 55
    else 99
  if v < radix then some v else none

/-- ECMAScript `parseInt(s)` with no radix argument: skip whitespace, take an
optional sign, detect a `0x`/`0X` prefix (hex) else use base 10, then read the
longest run of digits.  `none` models the `NaN` result (no digits found). -/
def parseIntJS (s : List Char) : Option Int :=
  let s1 := s.dropWhile isWS
  let neg : Bool := match s1 with | '-' :: _ => true | _ => false
  let s2 := match s1 with | '-' :: r => r | '+' :: r => r | _ => s1
  let radix : Nat := match s2 with
    | '0' :: 'x' :: _ => 16
    | '0' :: 'X' :: _ => 16
    | _ => 10
  let s3 := match s2 with
    | '0' :: 'x' :: r => r
    | '0' :: 'X' :: r => r
    | _ => s2
  let ds := s3.takeWhile (fun c => (digitVal radix c).isSome)
  if ds.isEmpty then none
  else
    let v : Nat := ds.foldl (fun acc c => acc * radix + ((digitVal radix c).getD 0)) 0
    some (if neg then -(v : Int) else (v : Int))

/-- JS strict equality `u.id === userId` between a number field and a parsed
id that may be `NaN` (modelled `none`): `NaN` compares unequal to everything. -/
def idMatch (k : Option Int) (uid : Int) : Bool :=
  match k with
  | none => false
  | some v => uid == v

/-- JS strict equality between `config.activeUser` (number or `null`) and a
parsed id (number or `NaN`): true only when both are numbers and equal. -/
def strictEq : Option Int → Option Int → Bool
  | some a, some b => a == b
  | _, _ => false

/-- JS truthiness of `config.activeUser` (a number or `null`): `null` and `0`
are falsy, every other number is truthy. -/
def truthy : Option Int → Bool
  | none => false
  | some v => v != 0

/-! ## The SSH config text engine (`updateSSHConfig`, src/unnamed/part_001 lines 30-56) -/

/-- The fixed header-line text in front of the alias: `Host github.com-`. -/
def headerPre : List Char := "Host github.com-".toList

/-- A stanza header line for a given alias, `Host github.com-<alias>`. -/
def headerLine (al : List Char) : List Char := headerPre ++ al

/-- First literal run of the removal regex before the unescaped dot:
`Host github`. -/
def hdrA : List Char := "Host github".toList

/-- Second literal run of the removal regex after the unescaped dot:
`com-`. -/
def hdrB : List Char := "com-".toList

/-- What the unescaped `.` of `github.com` matches in JS (no `s` flag): any
character except a line terminator. -/
def dotChar (c : Char) : Bool :=
  !(c = '\n' || c = '\r' || c = '\u2028' || c = '\u2029')

/-- Strip an expected literal run off the front of a string. -/
def stripPre : List Char → List Char → Option (List Char)
  | [], s => some s
  | _ :: _, [] => none
  | a :: as, b :: bs => if a = b then stripPre as bs else none

/-- Try to match the head of the removal regex
`\nHost github.com-<alias>` (with `.` a JS wildcard) at the start of `s`;
on success return the remainder after the matched header. -/
def tryHeader (al : List Char) : List Char → Option (List Char)
  | [] => none
  | c :: rest =>
    if c = '\n' then
      match stripPre hdrA rest with
      | none => none
      | some r1 =>
        match r1 with
        | [] => none
        | d :: r2 =>
          if dotChar d then
            match stripPre hdrB r2 with
            | none => none
            | some r3 => stripPre al r3
          else none
    else none

/-- One left-to-right pass of
`sshConfig.replace(new RegExp("\\nHost github.com-" + alias + "[\\s\\S]*?(?=\\n\\w|$)", "g"), "")`.

In emit mode (`false`) each position is tested for a match start; on a match
the scanner enters skip mode (`true`), which consumes characters lazily until
the lookahead `\n` + word char holds (or the end of input, i.e. `$`), at which
point scanning resumes.  The matched header contains no line terminator for
the alias strings this program ever passes, so the character-at-a-time skip
below agrees with the regex's lazy `[\s\S]*?`. -/
def rbScan (al : List Char) : Bool → List Char → List Char
  | _, [] => []
  | false, c :: rest =>
    if (tryHeader al (c :: rest)).isSome then rbScan al true rest
    else c :: rbScan al false rest
  | true, c :: rest =>
    if c = '\n' then
      match rest with
      | d :: _ =>
        if wordChar d then
          (if (tryHeader al (c :: rest)).isSome then rbScan al true rest
           else c :: rbScan al false rest)
        else rbScan al true rest
      | [] => rbScan al true rest
    else rbScan al true rest

/-- The stanza template appended by `updateSSHConfig` in add mode
(src/unnamed/part_001 lines 45-51). -/
def newBlock (al path : List Char) : List Char :=
  '\n' :: headerLine al
    ++ "\n    HostName github.com\n    User git\n    IdentityFile ".toList
    ++ path
    ++ "\n    IdentitiesOnly yes\n".toList

/-- `updateSSHConfig(alias, sshKeyPath, isRemove)`: in remove mode run the
global regex replacement, otherwise append a fresh stanza; either way the
file is rewritten as `sshConfig.trim() + "\n"`. -/
def updateSSHConfigFn (al path : List Char) (isRemove : Bool) (ssh : List Char) :
    List Char :=
  if isRemove then trimL (rbScan al false ssh) ++ ['\n']
  else trimL (ssh ++ newBlock al path) ++ ['\n']

/-- Split a text into its lines (separator `'\n'`). -/
def splitLines : List Char → List (List Char)
  | [] => [[]]
  | '\n' :: r => [] :: splitLines r
  | c :: r =>
    match splitLines r with
    | [] => [[c]]
    | l :: ls => (c :: l) :: ls

/-- Number of stanzas for an alias in an SSH config text: the number of lines
that read exactly `Host github.com-<alias>`. -/
def stanzaCount (al : List Char) (s : List Char) : Nat :=
  (splitLines s).count (headerLine al)

/-! ## Structured SSH config files

To state what removal does on a whole file, a well-formed file is described
as a list of stanzas — a header alias plus indented body lines — rendered to
text exactly as the SSH client reads it. -/

/-- One stanza: `Host github.com-<hostAlias>` followed by body lines. -/
structure Stanza where
  hostAlias : List Char
  body : List (List Char)
deriving DecidableEq, Repr

/-- A usable alias: nonempty, made of word characters (as the aliases and
names this program interpolates into the regex are). -/
def aliasOK (l : List Char) : Bool := !l.isEmpty && l.all wordChar

/-- A well-formed stanza body line: nonempty, not word-initial (it is an
indented option line), single-line, and not ending in whitespace. -/
def lineOK (l : List Char) : Bool :=
  !l.isEmpty && !wordChar (l.headD ' ') && l.all (fun c => !(c = '\n'))
    && !isWS (l.getLastD ' ')

/-- A well-formed stanza. -/
def stanzaOK (s : Stanza) : Bool := aliasOK s.hostAlias && s.body.all lineOK

/-- Body lines rendered as text: each preceded by its newline. -/
def renderBody (bs : List (List Char)) : List Char :=
  bs.foldr (fun l acc => ('\n' :: l) ++ acc) []

/-- A stanza rendered as text (no surrounding newlines). -/
def renderStanza (s : Stanza) : List Char :=
  headerLine s.hostAlias ++ renderBody s.body

/-- Stanzas after the first, each preceded by its separating newline,
closed by the file's trailing newline. -/
def renderTail (ss : List Stanza) : List Char :=
  ss.foldr (fun s acc => ('\n' :: renderStanza s) ++ acc) ['\n']

/-- Same as `renderTail` but without the trailing newline. -/
def renderTailF (ss : List Stanza) : List Char :=
  ss.foldr (fun s acc => ('\n' :: renderStanza s) ++ acc) []

/-- A whole well-formed SSH config file: a first stanza at the very start of
the file, the remaining stanzas each preceded by a newline, and a final
newline — exactly the shape `updateSSHConfig` itself persists. -/
def renderConfig (s0 : Stanza) (rest : List Stanza) : List Char :=
  renderStanza s0 ++ renderTail rest

/-- Whether removal with argument `al` leaves a stanza in place: it is kept
unless `al` is a literal prefix of its alias (the regex matches the header
`Host github.com-<al>` as a prefix of the header line). -/
def keepStanza (al : List Char) (s : Stanza) : Bool :=
  (stripPre al s.hostAlias).isNone

/-! ## Embedding of `src/unnamed/part_001` (the alias/SSH variant) -/

namespace PartOne

/-- An identity record as pushed by the `add` action (lines 112-118). -/
structure User where
  id : Int
  name : List Char
  email : List Char
  «alias» : List Char
  sshKeyPath : List Char
deriving DecidableEq, Repr

/-- The persisted registry `config` (line 22): `{ users: [], activeUser: null }`. -/
structure Config where
  users : List User
  activeUser : Option Int
deriving DecidableEq, Repr

/-- The initial registry when no config file exists yet. -/
def initialConfig : Config := ⟨[], none⟩

/-- The required options of the `add` command. -/
structure AddOpts where
  name : List Char
  email : List Char
  «alias» : List Char
deriving DecidableEq, Repr

/-- One invocation of `updateSSHConfig(alias, sshKeyPath, isRemove)`,
recording the arguments it received. -/
structure SSHCall where
  «alias» : List Char
  path : List Char
  isRemove : Bool
deriving DecidableEq, Repr

/-- A write to an external store: the SSH config file (with the content
written), the registry file (`saveConfig`), or an `fs.unlinkSync`. -/
inductive Write
  | sshConfig (content : List Char)
  | registry (cfg : Config)
  | unlink (path : List Char)
deriving DecidableEq, Repr

/-- Console output, as tagged messages carrying their dynamic data. -/
inductive Out
  | sshKeyGenerated (path : List Char)
  | sshConfigUpdatedHint («alias» : List Char)
  | addedUser (name : List Char) (id : Int)
  | noActiveUser
  | currentUser (name email : List Char) (id : Int)
  | noUserFound (id : Option Int)
  | sshKeysRemoved (name : List Char)
  | removedUser (name : List Char) (id : Option Int)
  | switchedUser (name email : List Char)
  | noUsers
  | listHeader
  | userLine (id : Int) (name email «alias» : List Char) (active : Bool)
  | noSSHKey (name : List Char)
  | publicKey (name content : List Char)
deriving DecidableEq, Repr

/-- Result of one command invocation: final registry and SSH config text,
the external writes in order, the `updateSSHConfig` / `setGitConfig` /
`ssh-keygen` invocation traces, the console output, and whether the command
threw (`crashed`). -/
structure Res where
  cfg : Config
  ssh : List Char
  writes : List Write
  sshCalls : List SSHCall
  gitSets : List (List Char × List Char)
  keygens : List (List Char)
  out : List Out
  crashed : Bool
deriving DecidableEq, Repr

/-- `path.join(SSH_DIR, "id_rsa_gitmt_" + options.alias.toLowerCase())`
(lines 83-86); `Char.toLower` models the ASCII part of `toLowerCase`. -/
def keyPath (sshDir : List Char) (o : AddOpts) : List Char :=
  sshDir ++ '/' :: "id_rsa_gitmt_".toList ++ o.«alias».map Char.toLower

/-- The `add` action (lines 82-129).  `keyExists` is `existsSync(sshKeyPath)`;
`confirmGen` is the prompt answer (consulted only when the key is missing).
Note line 125: the unconditional `updateSSHConfig` call passes
`options.name`, not `options.alias`. -/
def addAction (sshDir : List Char) (o : AddOpts) (keyExists confirmGen : Bool)
    (cfg : Config) (ssh : List Char) : Res :=
  let sshKeyPath := keyPath sshDir o
  let genRan := !keyExists && confirmGen
  let ssh1 := if genRan then updateSSHConfigFn o.«alias» sshKeyPath false ssh else ssh
  let w1 : List Write := if genRan then [.sshConfig ssh1] else []
  let calls1 : List SSHCall := if genRan then [⟨o.«alias», sshKeyPath, false⟩] else []
  let gens1 : List (List Char) := if genRan then [sshKeyPath] else []
  let out1 : List Out :=
    if genRan then [.sshKeyGenerated sshKeyPath, .sshConfigUpdatedHint o.«alias»] else []
  let userId : Int := cfg.users.length + 1
  let user : User := ⟨userId, o.name, o.email, o.«alias», sshKeyPath⟩
  let users' := cfg.users ++ [user]
  let active' := if truthy cfg.activeUser then cfg.activeUser else some userId
  let gitSets := if truthy cfg.activeUser then [] else [(o.name, o.email)]
  let ssh2 := updateSSHConfigFn o.name sshKeyPath false ssh1
  let cfg' : Config := ⟨users', active'⟩
  { cfg := cfg', ssh := ssh2,
    writes := w1 ++ [.sshConfig ssh2, .registry cfg'],
    sshCalls := calls1 ++ [⟨o.name, sshKeyPath, false⟩],
    gitSets := gitSets, keygens := gens1,
    out := out1 ++ [.addedUser o.name userId], crashed := false }

/-- `findIndex` on the parsed id followed by `splice(userIndex, 1)`
(lines 152, 185): remove the first matching record, returning it and the
remaining list; `none` models `findIndex` returning `-1`. -/
def spliceOut (k : Option Int) : List User → Option (User × List User)
  | [] => none
  | u :: us =>
    if idMatch k u.id then some (u, us)
    else
      match spliceOut k us with
      | none => none
      | some (v, us') => some (v, u :: us')

/-- The `remove` action (lines 150-194).  `keyExists` / `pubExists` are the
`existsSync` results for the private and public key files; `confirmRemove`
is the prompt answer.  Note line 190: the unconditional removal call passes
`user.name` (and the key path) into `updateSSHConfig`, not `user.alias`. -/
def removeAction (idArg : List Char) (keyExists pubExists confirmRemove : Bool)
    (cfg : Config) (ssh : List Char) : Res :=
  let userId := parseIntJS idArg
  match spliceOut userId cfg.users with
  | none =>
    { cfg := cfg, ssh := ssh, writes := [], sshCalls := [], gitSets := [],
      keygens := [], out := [.noUserFound userId], crashed := false }
  | some (user, users') =>
    let sshKeyExists := keyExists || pubExists
    let remRan := sshKeyExists && confirmRemove
    let ssh1 := if remRan then updateSSHConfigFn user.«alias» [] true ssh else ssh
    let w1 : List Write :=
      if remRan then
        (if keyExists then [.unlink user.sshKeyPath] else [])
          ++ (if pubExists then [.unlink (user.sshKeyPath ++ ".pub".toList)] else [])
          ++ [.sshConfig ssh1]
      else []
    let calls1 : List SSHCall := if remRan then [⟨user.«alias», [], true⟩] else []
    let out1 : List Out := if remRan then [.sshKeysRemoved user.name] else []
    let active' := if strictEq cfg.activeUser userId then none else cfg.activeUser
    let ssh2 := updateSSHConfigFn user.name user.sshKeyPath true ssh1
    let cfg' : Config := ⟨users', active'⟩
    { cfg := cfg', ssh := ssh2,
      writes := w1 ++ [.sshConfig ssh2, .registry cfg'],
      sshCalls := calls1 ++ [⟨user.name, user.sshKeyPath, true⟩],
      gitSets := [], keygens := [],
      out := out1 ++ [.removedUser user.name userId], crashed := false }

/-- The `change` action (lines 200-213). -/
def changeAction (idArg : List Char) (cfg : Config) (ssh : List Char) : Res :=
  let userId := parseIntJS idArg
  match cfg.users.find? (fun u => idMatch userId u.id) with
  | none =>
    { cfg := cfg, ssh := ssh, writes := [], sshCalls := [], gitSets := [],
      keygens := [], out := [.noUserFound userId], crashed := false }
  | some user =>
    let cfg' : Config := ⟨cfg.users, userId⟩
    { cfg := cfg', ssh := ssh, writes := [.registry cfg'], sshCalls := [],
      gitSets := [(user.name, user.email)], keygens := [],
      out := [.switchedUser user.name user.email], crashed := false }

/-- Console output of the `current` action (lines 134-144): the found record
is dereferenced with no null check, so a dangling `activeUser` produces no
output and a thrown `TypeError` instead (see `currentCrashed`). -/
def currentOut (cfg : Config) : List Out :=
  if truthy cfg.activeUser then
    match cfg.users.find? (fun u => strictEq (some u.id) cfg.activeUser) with
    | some u => [.currentUser u.name u.email u.id]
    | none => []
  else [.noActiveUser]

/-- Whether `current` throws: `config.users.find(...)` returned `undefined`
and line 142 reads `user.name` off it. -/
def currentCrashed (cfg : Config) : Bool :=
  truthy cfg.activeUser
    && (cfg.users.find? (fun u => strictEq (some u.id) cfg.activeUser)).isNone

/-- The `current` action (lines 134-144): reads only; never writes. -/
def currentAction (cfg : Config) (ssh : List Char) : Res :=
  { cfg := cfg, ssh := ssh, writes := [], sshCalls := [], gitSets := [],
    keygens := [], out := currentOut cfg, crashed := currentCrashed cfg }

/-- Console output of the `list` action (lines 218-233); the per-user clone
hint is folded into the `userLine` token (it is a function of the alias). -/
def listOut (cfg : Config) : List Out :=
  if cfg.users.length = 0 then [.noUsers]
  else
    .listHeader ::
      cfg.users.map (fun u =>
        .userLine u.id u.name u.email u.«alias» (strictEq (some u.id) cfg.activeUser))

/-- The `list` action (lines 215-234): reads only; never writes. -/
def listAction (cfg : Config) (ssh : List Char) : Res :=
  { cfg := cfg, ssh := ssh, writes := [], sshCalls := [], gitSets := [],
    keygens := [], out := listOut cfg, crashed := false }

/-- Console output of the `key` action (lines 240-258); `pubExists` is
`existsSync(publicKeyPath)` and `pubContent` the file's text when present. -/
def keyOut (idArg : List Char) (pubExists : Bool) (pubContent : List Char)
    (cfg : Config) : List Out :=
  let userId := parseIntJS idArg
  match cfg.users.find? (fun u => idMatch userId u.id) with
  | none => [.noUserFound userId]
  | some user =>
    if pubExists then [.publicKey user.name pubContent] else [.noSSHKey user.name]

/-- The `key` action (lines 236-259): reads only; never writes. -/
def keyAction (idArg : List Char) (pubExists : Bool) (pubContent : List Char)
    (cfg : Config) (ssh : List Char) : Res :=
  { cfg := cfg, ssh := ssh, writes := [], sshCalls := [], gitSets := [],
    keygens := [], out := keyOut idArg pubExists pubContent cfg, crashed := false }

/-- One CLI invocation of a mutating command, with all external inputs
(prompt answers, file-existence facts) packed into the constructor. -/
inductive Op
  | add (o : AddOpts) (keyExists confirmGen : Bool)
  | remove (idArg : List Char) (keyExists pubExists confirmRemove : Bool)
  | change (idArg : List Char)
deriving DecidableEq, Repr

/-- The state threaded between invocations: the persisted registry and the
SSH config file contents. -/
structure St where
  cfg : Config
  ssh : List Char
deriving DecidableEq, Repr

/-- Run one command against the persistent state. -/
def step (sshDir : List Char) (st : St) : Op → St
  | .add o kE cG =>
    let r := addAction sshDir o kE cG st.cfg st.ssh
    ⟨r.cfg, r.ssh⟩
  | .remove i kE pE cR =>
    let r := removeAction i kE pE cR st.cfg st.ssh
    ⟨r.cfg, r.ssh⟩
  | .change i =>
    let r := changeAction i st.cfg st.ssh
    ⟨r.cfg, r.ssh⟩

/-- Run a sequence of command invocations. -/
def run (sshDir : List Char) (ops : List Op) (st : St) : St :=
  ops.foldl (step sshDir) st

/-- The aliases supplied by the `add` operations of a sequence, in order. -/
def addAliases (ops : List Op) : List (List Char) :=
  ops.filterMap (fun op =>
    match op with
    | .add o _ _ => some o.«alias»
    | _ => none)

/-- `activeUser` is `null` or the id of some current record. -/
def ValidActive (cfg : Config) : Prop :=
  ∀ v, cfg.activeUser = some v → ∃ u ∈ cfg.users, u.id = v

end PartOne

/-! ## Embedding of `src/bin/gitmt.js` (the globalConfig-snapshot variant) -/

namespace BinMain

/-- An identity record as pushed by the `add` action (lines 93-98); this
variant has no alias field. -/
structure User where
  id : Int
  name : List Char
  email : List Char
  sshKeyPath : List Char
deriving DecidableEq, Repr

/-- The snapshot `{ name, email }` stored by `saveGlobalGitConfig`. -/
structure GlobalSnap where
  name : List Char
  email : List Char
deriving DecidableEq, Repr

/-- The persisted registry `config` (line 22):
`{ users: [], activeUser: null, globalConfig: null }`. -/
structure Config where
  users : List User
  activeUser : Option Int
  globalConfig : Option GlobalSnap
deriving DecidableEq, Repr

/-- The initial registry when no config file exists yet. -/
def initialConfig : Config := ⟨[], none, none⟩

/-- The scope argument of `setGitConfig` / `git.addConfig`. -/
inductive Scope
  | global
  | loc
deriving DecidableEq, Repr

/-- The machine's git configuration: the global `user.name`/`user.email`
pair, and the local one for the directory the command runs in.  `none`
means the identity is not set; per the documented external contract,
`git.getConfig` on a missing global identity fails (the `catch` in
`saveGlobalGitConfig` fires). -/
structure GitState where
  globalCfg : Option (List Char × List Char)
  localCfg : Option (List Char × List Char)
deriving DecidableEq, Repr

/-- A write to an external store. -/
inductive Write
  | registry (cfg : Config)
  | gitUserName (s : Scope) (v : List Char)
  | gitUserEmail (s : Scope) (v : List Char)
  | unlink (path : List Char)
deriving DecidableEq, Repr

/-- Console output, as tagged messages carrying their dynamic data. -/
inductive Out
  | sshKeyGenerated (path : List Char)
  | noGlobalGitConfig
  | addedUser (name : List Char) (id : Int)
  | noActiveUser
  | currentUser (name email : List Char) (id : Int)
  | noUserFound (id : Option Int)
  | sshKeysRemoved (name : List Char)
  | removedUser (name : List Char) (id : Option Int)
  | switchedUser (name email : List Char)
  | noUsers
  | listHeader
  | userLine (id : Int) (name email : List Char) (active : Bool)
  | savedGlobal (name email : List Char)
  | noSavedGlobal
  | noSSHKey (name : List Char)
  | publicKey (name content : List Char)
deriving DecidableEq, Repr

/-- Result of one helper or command invocation. -/
structure Res where
  cfg : Config
  git : GitState
  writes : List Write
  keygens : List (List Char)
  out : List Out
  crashed : Bool
deriving DecidableEq, Repr

/-- `saveGlobalGitConfig` (lines 33-46): read the global `user.name` and
`user.email`; on success store them as `config.globalConfig` and persist;
when no global git identity exists the `catch` logs
`"No global git config found"` and stores nothing. -/
def saveGlobalGitConfig (cfg : Config) (git : GitState) : Res :=
  match git.globalCfg with
  | some (n, e) =>
    let cfg' : Config := ⟨cfg.users, cfg.activeUser, some ⟨n, e⟩⟩
    { cfg := cfg', git := git, writes := [.registry cfg'], keygens := [],
      out := [], crashed := false }
  | none =>
    { cfg := cfg, git := git, writes := [], keygens := [],
      out := [.noGlobalGitConfig], crashed := false }

/-- `setGitConfig(name, email, scope)` (lines 49-56): snapshot the global
identity first when `config.globalConfig` is still null, then write both
git config keys at the requested scope. -/
def setGitConfig (name email : List Char) (scope : Scope)
    (cfg : Config) (git : GitState) : Res :=
  let pre :=
    if cfg.globalConfig.isNone then saveGlobalGitConfig cfg git
    else
      { cfg := cfg, git := git, writes := [], keygens := [], out := [],
        crashed := false }
  let git' : GitState :=
    match scope with
    | .global => ⟨some (name, email), git.localCfg⟩
    | .loc => ⟨git.globalCfg, some (name, email)⟩
  { cfg := pre.cfg, git := git',
    writes := pre.writes ++ [.gitUserName scope name, .gitUserEmail scope email],
    keygens := [], out := pre.out, crashed := false }

/-- Scanner for `name.replace(/\s+/g, "_")`: the flag records whether the
previous character was part of a whitespace run already replaced. -/
def underscoreRunsGo : Bool → List Char → List Char
  | _, [] => []
  | prevWS, c :: r =>
    if isWS c then
      (if prevWS then underscoreRunsGo true r else '_' :: underscoreRunsGo true r)
    else c :: underscoreRunsGo false r

/-- `name.replace(/\s+/g, "_")` (line 73): each maximal run of whitespace in
the name becomes a single underscore. -/
def underscoreRuns (s : List Char) : List Char := underscoreRunsGo false s

/-- `path.join(SSH_DIR, "id_rsa_gitmt_" + name.replace(/\s+/g, "_").toLowerCase())`
(lines 71-74). -/
def keyPath (sshDir : List Char) (name : List Char) : List Char :=
  sshDir ++ '/' :: "id_rsa_gitmt_".toList ++ (underscoreRuns name).map Char.toLower

/-- The `add` action (lines 70-111).  `useLocal` is the `--local` flag;
this variant performs no SSH-config editing at all. -/
def addAction (sshDir : List Char) (name email : List Char) (useLocal : Bool)
    (keyExists confirmGen : Bool) (cfg : Config) (git : GitState) : Res :=
  let sshKeyPath := keyPath sshDir name
  let genRan := !keyExists && confirmGen
  let gens1 : List (List Char) := if genRan then [sshKeyPath] else []
  let out1 : List Out := if genRan then [.sshKeyGenerated sshKeyPath] else []
  let userId : Int := cfg.users.length + 1
  let user : User := ⟨userId, name, email, sshKeyPath⟩
  let users' := cfg.users ++ [user]
  let setRan := !truthy cfg.activeUser
  let active' := if setRan then some userId else cfg.activeUser
  let cfgA : Config := ⟨users', active', cfg.globalConfig⟩
  let setRes :=
    if setRan then setGitConfig name email (if useLocal then .loc else .global) cfgA git
    else
      { cfg := cfgA, git := git, writes := [], keygens := [], out := [],
        crashed := false }
  let cfg' := setRes.cfg
  { cfg := cfg', git := setRes.git,
    writes := setRes.writes ++ [.registry cfg'],
    keygens := gens1,
    out := out1 ++ setRes.out ++ [.addedUser name userId], crashed := false }

/-- `findIndex` + `splice(userIndex, 1)` (lines 134, 166). -/
def spliceOut (k : Option Int) : List User → Option (User × List User)
  | [] => none
  | u :: us =>
    if idMatch k u.id then some (u, us)
    else
      match spliceOut k us with
      | none => none
      | some (v, us') => some (v, u :: us')

/-- The `remove` action (lines 132-173); no SSH-config editing in this
variant. -/
def removeAction (idArg : List Char) (keyExists pubExists confirmRemove : Bool)
    (cfg : Config) (git : GitState) : Res :=
  let userId := parseIntJS idArg
  match spliceOut userId cfg.users with
  | none =>
    { cfg := cfg, git := git, writes := [], keygens := [],
      out := [.noUserFound userId], crashed := false }
  | some (user, users') =>
    let remRan := (keyExists || pubExists) && confirmRemove
    let w1 : List Write :=
      if remRan then
        (if keyExists then [.unlink user.sshKeyPath] else [])
          ++ (if pubExists then [.unlink (user.sshKeyPath ++ ".pub".toList)] else [])
      else []
    let out1 : List Out := if remRan then [.sshKeysRemoved user.name] else []
    let active' := if strictEq cfg.activeUser userId then none else cfg.activeUser
    let cfg' : Config := ⟨users', active', cfg.globalConfig⟩
    { cfg := cfg', git := git,
      writes := w1 ++ [.registry cfg'], keygens := [],
      out := out1 ++ [.removedUser user.name userId], crashed := false }

/-- The `change` action (lines 180-197). -/
def changeAction (idArg : List Char) (useLocal : Bool)
    (cfg : Config) (git : GitState) : Res :=
  let userId := parseIntJS idArg
  match cfg.users.find? (fun u => idMatch userId u.id) with
  | none =>
    { cfg := cfg, git := git, writes := [], keygens := [],
      out := [.noUserFound userId], crashed := false }
  | some user =>
    let cfgA : Config := ⟨cfg.users, userId, cfg.globalConfig⟩
    let setRes :=
      setGitConfig user.name user.email (if useLocal then .loc else .global) cfgA git
    let cfg' := setRes.cfg
    { cfg := cfg', git := setRes.git,
      writes := setRes.writes ++ [.registry cfg'], keygens := [],
      out := setRes.out ++ [.switchedUser user.name user.email], crashed := false }

/-- Console output of `current` (lines 116-126); same unguarded dereference
as the other variant. -/
def currentOut (cfg : Config) : List Out :=
  if truthy cfg.activeUser then
    match cfg.users.find? (fun u => strictEq (some u.id) cfg.activeUser) with
    | some u => [.currentUser u.name u.email u.id]
    | none => []
  else [.noActiveUser]

/-- Whether `current` throws on a dangling `activeUser` (line 124 reads
`user.name` off `undefined`). -/
def currentCrashed (cfg : Config) : Bool :=
  truthy cfg.activeUser
    && (cfg.users.find? (fun u => strictEq (some u.id) cfg.activeUser)).isNone

/-- The `current` action (lines 114-126): reads only; never writes. -/
def currentAction (cfg : Config) (git : GitState) : Res :=
  { cfg := cfg, git := git, writes := [], keygens := [],
    out := currentOut cfg, crashed := currentCrashed cfg }

/-- Console output of `list` (lines 202-212). -/
def listOut (cfg : Config) : List Out :=
  if cfg.users.length = 0 then [.noUsers]
  else
    .listHeader ::
      cfg.users.map (fun u =>
        .userLine u.id u.name u.email (strictEq (some u.id) cfg.activeUser))

/-- The `list` action (lines 199-213): reads only; never writes. -/
def listAction (cfg : Config) (git : GitState) : Res :=
  { cfg := cfg, git := git, writes := [], keygens := [],
    out := listOut cfg, crashed := false }

/-- Console output of the read-only `global` command (lines 215-226). -/
def globalOut (cfg : Config) : List Out :=
  match cfg.globalConfig with
  | some g => [.savedGlobal g.name g.email]
  | none => [.noSavedGlobal]

/-- The `global` action (lines 215-226): reads only; never writes. -/
def globalAction (cfg : Config) (git : GitState) : Res :=
  { cfg := cfg, git := git, writes := [], keygens := [],
    out := globalOut cfg, crashed := false }

/-- Console output of `key` (lines 228-250). -/
def keyOut (idArg : List Char) (pubExists : Bool) (pubContent : List Char)
    (cfg : Config) : List Out :=
  let userId := parseIntJS idArg
  match cfg.users.find? (fun u => idMatch userId u.id) with
  | none => [.noUserFound userId]
  | some user =>
    if pubExists then [.publicKey user.name pubContent] else [.noSSHKey user.name]

/-- The `key` action (lines 228-250): reads only; never writes. -/
def keyAction (idArg : List Char) (pubExists : Bool) (pubContent : List Char)
    (cfg : Config) (git : GitState) : Res :=
  { cfg := cfg, git := git, writes := [], keygens := [],
    out := keyOut idArg pubExists pubContent cfg, crashed := false }

end BinMain

/-! ## Helper lemmas -/

theorem idMatch_some {k : Option Int} {uid : Int} (h : idMatch k uid = true) :
    k = some uid := by
  cases k with
  | none => simp [idMatch] at h
  | some v => simp [idMatch] at h; simp [h]

namespace PartOne

theorem spliceOut_eq_none {k : Option Int} {us : List User}
    (h : ∀ u ∈ us, idMatch k u.id = false) : spliceOut k us = none := by
  induction us with
  | nil => rfl
  | cons u us ih =>
    have hu := h u (List.mem_cons_self u us)
    have hrest : spliceOut k us = none :=
      ih (fun x hx => h x (List.mem_cons_of_mem u hx))
    simp [spliceOut, hu, hrest]

theorem spliceOut_decomp {k : Option Int} :
    ∀ {us : List User} {u : User} {us' : List User},
      spliceOut k us = some (u, us') →
      ∃ l1 l2, us = l1 ++ u :: l2 ∧ us' = l1 ++ l2 ∧ idMatch k u.id = true := by
  intro us
  induction us with
  | nil => intro u us' h; simp [spliceOut] at h
  | cons a as ih =>
    intro u us' h
    by_cases ha : idMatch k a.id = true
    · simp only [spliceOut, ha, if_true, Option.some.injEq, Prod.mk.injEq] at h
      obtain ⟨h1, h2⟩ := h
      subst h1; subst h2
      exact ⟨[], as, rfl, rfl, ha⟩
    · rw [Bool.not_eq_true] at ha
      simp only [spliceOut, ha, Bool.false_eq_true, if_false] at h
      cases hs : spliceOut k as with
      | none => rw [hs] at h; cases h
      | some p =>
        obtain ⟨v, vs⟩ := p
        rw [hs] at h
        simp only [Option.some.injEq, Prod.mk.injEq] at h
        obtain ⟨rfl, rfl⟩ := h
        obtain ⟨l1, l2, he, he', hid⟩ := ih hs
        exact ⟨a :: l1, l2, by simp [he], by simp [he'], hid⟩

end PartOne

/-! ## Claim theorems -/

/-- C7: for every registry and every id that matches no existing record, the
`remove` action of `src/unnamed/part_001` leaves the registry and SSH config
unchanged, performs no writes and no external-tool calls, reports not-found,
and does not throw. -/
theorem C7_theorem (idArg : List Char) (kE pE cR : Bool)
    (cfg : PartOne.Config) (ssh : List Char)
    (h : ∀ u ∈ cfg.users, idMatch (parseIntJS idArg) u.id = false) :
    PartOne.removeAction idArg kE pE cR cfg ssh =
      ⟨cfg, ssh, [], [], [], [], [.noUserFound (parseIntJS idArg)], false⟩ := by
  have hs : PartOne.spliceOut (parseIntJS idArg) cfg.users = none :=
    PartOne.spliceOut_eq_none h
  simp [PartOne.removeAction, hs]

/-- Witness for C7 at a concrete registry and id. -/
theorem C7_witness :
    PartOne.removeAction "7".toList false false false
        ⟨[⟨1, "a".toList, "a@x".toList, "a".toList, "p".toList⟩], some 1⟩
        "Host github.com-a\n".toList =
      ⟨⟨[⟨1, "a".toList, "a@x".toList, "a".toList, "p".toList⟩], some 1⟩,
        "Host github.com-a\n".toList, [], [], [], [],
        [.noUserFound (parseIntJS "7".toList)], false⟩ :=
  C7_theorem "7".toList false false false
    ⟨[⟨1, "a".toList, "a@x".toList, "a".toList, "p".toList⟩], some 1⟩
    "Host github.com-a\n".toList (by decide)

/-- C8: the read-only commands — `list`, `current` and `key` of
`src/unnamed/part_001` and `global` of `src/bin/gitmt.js` — perform no
writes at all (in particular none to the registry file, whose bytes
therefore stay identical across repeated invocations) and leave every piece
of state unchanged. -/
theorem C8_theorem :
    (∀ (cfg : PartOne.Config) (ssh : List Char),
      (PartOne.listAction cfg ssh).writes = [] ∧
        (PartOne.listAction cfg ssh).cfg = cfg ∧
        (PartOne.listAction cfg ssh).ssh = ssh) ∧
    (∀ (cfg : PartOne.Config) (ssh : List Char),
      (PartOne.currentAction cfg ssh).writes = [] ∧
        (PartOne.currentAction cfg ssh).cfg = cfg ∧
        (PartOne.currentAction cfg ssh).ssh = ssh) ∧
    (∀ (idArg : List Char) (pubE : Bool) (pubC : List Char)
        (cfg : PartOne.Config) (ssh : List Char),
      (PartOne.keyAction idArg pubE pubC cfg ssh).writes = [] ∧
        (PartOne.keyAction idArg pubE pubC cfg ssh).cfg = cfg ∧
        (PartOne.keyAction idArg pubE pubC cfg ssh).ssh = ssh) ∧
    (∀ (cfg : BinMain.Config) (git : BinMain.GitState),
      (BinMain.globalAction cfg git).writes = [] ∧
        (BinMain.globalAction cfg git).cfg = cfg ∧
        (BinMain.globalAction cfg git).git = git) :=
  ⟨fun _ _ => ⟨rfl, rfl, rfl⟩, fun _ _ => ⟨rfl, rfl, rfl⟩,
    fun _ _ _ _ _ => ⟨rfl, rfl, rfl⟩, fun _ _ => ⟨rfl, rfl, rfl⟩⟩

/-- C9: `current` dereferences the record found for `activeUser` with no
null check.  When `activeUser` is null or references an existing record the
command never throws (in either variant); but a loaded registry whose
`activeUser` references no record makes `current` throw (modelled by the
`crashed` flag) — shown at the concrete registry
`{ users: [], activeUser: 1 }`, which still performs no writes. -/
theorem C9_theorem :
    (∀ (cfg : PartOne.Config) (ssh : List Char), PartOne.ValidActive cfg →
      (PartOne.currentAction cfg ssh).crashed = false) ∧
    (∀ (cfg : BinMain.Config) (git : BinMain.GitState),
      (∀ v, cfg.activeUser = some v → ∃ u ∈ cfg.users, u.id = v) →
      (BinMain.currentAction cfg git).crashed = false) ∧
    ((PartOne.currentAction ⟨[], some 1⟩ []).crashed = true ∧
      (PartOne.currentAction ⟨[], some 1⟩ []).writes = []) := by
  refine ⟨?_, ?_, by decide, rfl⟩
  · intro cfg ssh h
    show PartOne.currentCrashed cfg = false
    unfold PartOne.currentCrashed
    cases ha : cfg.activeUser with
    | none => simp [truthy, ha]
    | some v =>
      obtain ⟨u, hu, hid⟩ := h v ha
      have hsome : (cfg.users.find? (fun u => strictEq (some u.id) (some v))).isSome = true :=
        List.find?_isSome.mpr ⟨u, hu, by simp [strictEq, hid]⟩
      rcases ho : cfg.users.find? (fun u => strictEq (some u.id) (some v)) with _ | x
      · rw [ho] at hsome; cases hsome
      · simp [ho]
  · intro cfg git h
    show BinMain.currentCrashed cfg = false
    unfold BinMain.currentCrashed
    cases ha : cfg.activeUser with
    | none => simp [truthy, ha]
    | some v =>
      obtain ⟨u, hu, hid⟩ := h v ha
      have hsome : (cfg.users.find? (fun u => strictEq (some u.id) (some v))).isSome = true :=
        List.find?_isSome.mpr ⟨u, hu, by simp [strictEq, hid]⟩
      rcases ho : cfg.users.find? (fun u => strictEq (some u.id) (some v)) with _ | x
      · rw [ho] at hsome; cases hsome
      · simp [ho]

/-- Witness for C9's hypothesis-bearing parts at concrete registries. -/
theorem C9_witness :
    (PartOne.currentAction
        ⟨[⟨1, "a".toList, "a@x".toList, "a".toList, "p".toList⟩], some 1⟩
        []).crashed = false ∧
    (BinMain.currentAction
        ⟨[⟨1, "a".toList, "a@x".toList, "p".toList⟩], some 1, none⟩
        ⟨none, none⟩).crashed = false :=
  ⟨C9_theorem.1 ⟨[⟨1, "a".toList, "a@x".toList, "a".toList, "p".toList⟩], some 1⟩ []
      (by intro v hv; exact ⟨_, List.mem_cons_self _ _, by cases hv; rfl⟩),
    C9_theorem.2.1 ⟨[⟨1, "a".toList, "a@x".toList, "p".toList⟩], some 1, none⟩
      ⟨none, none⟩
      (by intro v hv; exact ⟨_, List.mem_cons_self _ _, by cases hv; rfl⟩)⟩

/-- C10: a non-numeric id argument parses to `NaN` (`none`), which matches
no record, so `remove`, `change` and `key` of `src/unnamed/part_001` all
take the not-found path: they print the not-found message and leave the
registry, the SSH config and every external store untouched. -/
theorem C10_theorem (idArg : List Char) (hna : parseIntJS idArg = none) :
    (∀ (kE pE cR : Bool) (cfg : PartOne.Config) (ssh : List Char),
      PartOne.removeAction idArg kE pE cR cfg ssh =
        ⟨cfg, ssh, [], [], [], [], [.noUserFound none], false⟩) ∧
    (∀ (cfg : PartOne.Config) (ssh : List Char),
      PartOne.changeAction idArg cfg ssh =
        ⟨cfg, ssh, [], [], [], [], [.noUserFound none], false⟩) ∧
    (∀ (pubE : Bool) (pubC : List Char) (cfg : PartOne.Config) (ssh : List Char),
      PartOne.keyAction idArg pubE pubC cfg ssh =
        ⟨cfg, ssh, [], [], [], [], [.noUserFound none], false⟩) := by
  refine ⟨?_, ?_, ?_⟩
  · intro kE pE cR cfg ssh
    have hs : PartOne.spliceOut none cfg.users = none :=
      PartOne.spliceOut_eq_none (fun u _ => rfl)
    simp [PartOne.removeAction, hna, hs]
  · intro cfg ssh
    have hf : cfg.users.find? (fun u => idMatch none u.id) = none :=
      List.find?_eq_none.mpr (fun x _ => by simp [idMatch])
    simp [PartOne.changeAction, hna, hf]
  · intro pubE pubC cfg ssh
    have hf : cfg.users.find? (fun u => idMatch none u.id) = none :=
      List.find?_eq_none.mpr (fun x _ => by simp [idMatch])
    simp [PartOne.keyAction, PartOne.keyOut, hna, hf]

namespace PartOne

theorem validActive_step (sshDir : List Char) (st : St) (op : Op)
    (h : ValidActive st.cfg) : ValidActive (step sshDir st op).cfg := by
  cases op with
  | add o kE cG =>
    intro v hv
    simp only [step, addAction] at hv ⊢
    by_cases hA : truthy st.cfg.activeUser
    · rw [if_pos hA] at hv
      obtain ⟨u, hu, hid⟩ := h v hv
      exact ⟨u, List.mem_append_left _ hu, hid⟩
    · rw [if_neg hA] at hv
      refine ⟨⟨(st.cfg.users.length : Int) + 1, o.name, o.email, o.«alias»,
        keyPath sshDir o⟩, List.mem_append_right _ (List.mem_singleton.mpr rfl), ?_⟩
      exact Option.some.inj hv
  | remove idArg kE pE cR =>
    cases hs : spliceOut (parseIntJS idArg) st.cfg.users with
    | none =>
      intro v hv
      simp only [step, removeAction, hs] at hv ⊢
      exact h v hv
    | some p =>
      obtain ⟨u, us'⟩ := p
      obtain ⟨l1, l2, hus, hus', hid⟩ := spliceOut_decomp hs
      intro v hv
      simp only [step, removeAction, hs] at hv ⊢
      by_cases hc : strictEq st.cfg.activeUser (parseIntJS idArg) = true
      · rw [if_pos hc] at hv
        cases hv
      · rw [if_neg hc] at hv
        obtain ⟨u0, hu0, hid0⟩ := h v hv
        have hk : parseIntJS idArg = some u.id := idMatch_some hid
        have hne : u0.id ≠ u.id := by
          intro he
          apply hc
          rw [hv, hk]
          simp [strictEq, ← hid0, he]
        have hu0' : u0 ∈ us' := by
          rw [hus']
          rw [hus] at hu0
          rcases List.mem_append.mp hu0 with h1 | h2
          · exact List.mem_append_left _ h1
          · rcases List.mem_cons.mp h2 with rfl | h3
            · exact absurd rfl hne
            · exact List.mem_append_right _ h3
        exact ⟨u0, hu0', hid0⟩
  | change idArg =>
    cases hf : st.cfg.users.find? (fun u => idMatch (parseIntJS idArg) u.id) with
    | none =>
      intro v hv
      simp only [step, changeAction, hf] at hv ⊢
      exact h v hv
    | some u =>
      intro v hv
      simp only [step, changeAction, hf] at hv ⊢
      have hm : idMatch (parseIntJS idArg) u.id = true := by
        simpa using List.find?_some hf
      have hk : parseIntJS idArg = some u.id := idMatch_some hm
      rw [hk] at hv
      exact ⟨u, List.mem_of_find?_eq_some hf, Option.some.inj hv⟩

end PartOne

/-- C3: in `src/unnamed/part_001`, starting from any state whose
`activeUser` is null or the id of an existing record, every sequence of
`add`, `remove` and `change` invocations preserves that property. -/
theorem C3_theorem (sshDir : List Char) (ops : List PartOne.Op)
    (st : PartOne.St) (h : PartOne.ValidActive st.cfg) :
    PartOne.ValidActive (PartOne.run sshDir ops st).cfg := by
  induction ops generalizing st with
  | nil => exact h
  | cons op ops ih => exact ih _ (PartOne.validActive_step sshDir st op h)

/-- Witness for C3: the invariant holds after a concrete add/remove/change
sequence run from the empty registry. -/
theorem C3_witness :
    PartOne.ValidActive
      ((PartOne.run []
          [.add ⟨"a".toList, "a@x".toList, "a".toList⟩ true true,
           .add ⟨"b".toList, "b@x".toList, "b".toList⟩ true true,
           .change "2".toList,
           .remove "1".toList false false false]
          ⟨PartOne.initialConfig, []⟩).cfg) :=
  C3_theorem []
    [.add ⟨"a".toList, "a@x".toList, "a".toList⟩ true true,
     .add ⟨"b".toList, "b@x".toList, "b".toList⟩ true true,
     .change "2".toList,
     .remove "1".toList false false false]
    ⟨PartOne.initialConfig, []⟩ (fun _ hv => Option.noConfusion hv)

namespace PartOne

theorem aliasNodup_run (sshDir : List Char) (ops : List Op) (st : St)
    (h : (st.cfg.users.map (fun u => u.«alias») ++ addAliases ops).Nodup) :
    ((run sshDir ops st).cfg.users.map (fun u => u.«alias»)).Nodup := by
  induction ops generalizing st with
  | nil => simpa [run, addAliases] using h
  | cons op ops ih =>
    have hrun : run sshDir (op :: ops) st = run sshDir ops (step sshDir st op) := rfl
    rw [hrun]
    apply ih
    cases op with
    | add o kE cG =>
      have hmap : (step sshDir st (.add o kE cG)).cfg.users.map (fun u => u.«alias»)
          = st.cfg.users.map (fun u => u.«alias») ++ [o.«alias»] := by
        simp [step, addAction]
      rw [hmap, List.append_assoc]
      simpa [addAliases] using h
    | remove idArg kE pE cR =>
      cases hs : spliceOut (parseIntJS idArg) st.cfg.users with
      | none =>
        have hmap : (step sshDir st (.remove idArg kE pE cR)).cfg.users = st.cfg.users := by
          simp [step, removeAction, hs]
        rw [hmap]
        simpa [addAliases] using h
      | some p =>
        obtain ⟨u, us'⟩ := p
        obtain ⟨l1, l2, hus, hus', _⟩ := spliceOut_decomp hs
        have hmap : (step sshDir st (.remove idArg kE pE cR)).cfg.users = us' := by
          simp [step, removeAction, hs]
        rw [hmap]
        have hsub : List.Sublist (us'.map (fun u => u.«alias»))
            (st.cfg.users.map (fun u => u.«alias»)) := by
          rw [hus, hus']
          exact (((List.Sublist.refl l2).cons u).append_left l1).map _
        have h' : (st.cfg.users.map (fun u => u.«alias») ++ addAliases ops).Nodup := by
          simpa [addAliases] using h
        exact h'.sublist (hsub.append_right _)
    | change idArg =>
      cases hf : st.cfg.users.find? (fun u => idMatch (parseIntJS idArg) u.id) with
      | none =>
        have hmap : (step sshDir st (.change idArg)).cfg.users = st.cfg.users := by
          simp [step, changeAction, hf]
        rw [hmap]
        simpa [addAliases] using h
      | some u =>
        have hmap : (step sshDir st (.change idArg)).cfg.users = st.cfg.users := by
          simp [step, changeAction, hf]
        rw [hmap]
        simpa [addAliases] using h

end PartOne

/-- C2: the `add` action's unconditional `updateSSHConfig` call (line 125)
passes `options.name` — not `options.alias` — into the parameter named
`alias`, and `remove`'s unconditional call (line 190) passes `user.name`;
so at the failing input
`add --name bob --email b@x --alias alice` with the SSH key already on disk
(key-generation branch skipped), the SSH config afterwards holds zero
stanzas for `github.com-alice` (the claim requires exactly one) and one for
`github.com-bob`; the subsequent `remove 1` (declining key deletion)
removes the `github.com-bob` stanza. -/
theorem C2_theorem :
    (∀ (sshDir : List Char) (o : PartOne.AddOpts) (kE cG : Bool)
        (cfg : PartOne.Config) (ssh : List Char),
      (PartOne.addAction sshDir o kE cG cfg ssh).sshCalls =
        (if !kE && cG then [⟨o.«alias», PartOne.keyPath sshDir o, false⟩] else [])
          ++ [⟨o.name, PartOne.keyPath sshDir o, false⟩]) ∧
    (let r1 := PartOne.addAction "/h/.ssh".toList
        ⟨"bob".toList, "b@x".toList, "alice".toList⟩ true true
        ⟨[], none⟩ "Host github.com-x\n    User git\n".toList
     let r2 := PartOne.removeAction "1".toList false false false r1.cfg r1.ssh
     stanzaCount "alice".toList r1.ssh = 0 ∧
       stanzaCount "bob".toList r1.ssh = 1 ∧
       stanzaCount "bob".toList r2.ssh = 0 ∧
       stanzaCount "alice".toList r2.ssh = 0 ∧
       r2.cfg.users = []) :=
  ⟨fun _ _ _ _ _ _ => rfl, by decide⟩

/-! ### Laws of the SSH removal scanner (for C5) -/

theorem wordChar_ne_nl {c : Char} (h : wordChar c = true) : ¬(c = '\n') := by
  intro he
  rw [he] at h
  exact absurd h (by decide)

theorem wordChar_not_ws {c : Char} (h : wordChar c = true) : isWS c = false := by
  by_contra hne
  rw [Bool.not_eq_false] at hne
  have hd : c = ' ' ∨ c = '\t' ∨ c = '\n' ∨ c = '\r' ∨ c = '\x0b' ∨ c = '\x0c' := by
    simpa [isWS, or_assoc] using hne
  rcases hd with rfl | rfl | rfl | rfl | rfl | rfl <;> exact absurd h (by decide)

theorem stripPre_eq_some {p s r : List Char} : stripPre p s = some r ↔ s = p ++ r := by
  induction p generalizing s with
  | nil => simp [stripPre]
  | cons a as ih =>
    cases s with
    | nil => simp [stripPre]
    | cons b bs =>
      by_cases hab : a = b
      · subst hab
        simp [stripPre, ih]
      · simp [stripPre, hab]
        exact fun h => (hab h.symm).elim

theorem stripPre_append (p r : List Char) : stripPre p (p ++ r) = some r :=
  stripPre_eq_some.mpr rfl

theorem stripPre_word_none {A al w : List Char}
    (hA : ∀ c ∈ A, wordChar c = true)
    (hn : stripPre A al = none) (hw : w.head? = some '\n') :
    stripPre A (al ++ w) = none := by
  induction A generalizing al with
  | nil => simp [stripPre] at hn
  | cons a as ih =>
    cases al with
    | nil =>
      cases w with
      | nil => simp at hw
      | cons c w' =>
        obtain rfl : c = '\n' := by simpa using hw
        have ha : wordChar a = true := hA a (List.mem_cons_self _ _)
        simp [stripPre, wordChar_ne_nl ha]
    | cons b al' =>
      by_cases hab : a = b
      · subst hab
        simp only [stripPre, if_pos rfl] at hn ⊢
        exact ih (fun c hc => hA c (List.mem_cons_of_mem _ hc)) hn
      · simp [stripPre, hab]

theorem tryHeader_not_nl {c : Char} (hc : ¬(c = '\n')) (al rest : List Char) :
    tryHeader al (c :: rest) = none := by
  simp [tryHeader, hc]

theorem tryHeader_nl_nil (al : List Char) : tryHeader al ['\n'] = none := rfl

theorem tryHeader_nl_not_H {c : Char} (hc : ¬(c = 'H')) (al t : List Char) :
    tryHeader al ('\n' :: c :: t) = none := by
  have h1 : stripPre hdrA (c :: t) = none := by
    have he : hdrA = 'H' :: "ost github".toList := rfl
    rw [he]
    simp only [stripPre]
    rw [if_neg (fun h : 'H' = c => hc h.symm)]
  simp [tryHeader, h1]

theorem tryHeader_header (al r : List Char) :
    tryHeader al ('\n' :: (headerPre ++ r)) = stripPre al r := by
  have h1 : stripPre hdrA (headerPre ++ r) = some ('.' :: (hdrB ++ r)) :=
    stripPre_eq_some.mpr rfl
  have h2 : stripPre hdrB (hdrB ++ r) = some r := stripPre_append _ _
  simp [tryHeader, h1, h2, dotChar]

theorem rbScan_false_cons (al : List Char) (c : Char) (rest : List Char) :
    rbScan al false (c :: rest) =
      if (tryHeader al (c :: rest)).isSome then rbScan al true rest
      else c :: rbScan al false rest := rfl

theorem rbScan_skip_not_nl {c : Char} (hc : ¬(c = '\n')) (al rest : List Char) :
    rbScan al true (c :: rest) = rbScan al true rest := by
  simp [rbScan, hc]

theorem rbScan_skip_nl_nonword {d : Char} (hd : wordChar d = false)
    (al t : List Char) :
    rbScan al true ('\n' :: d :: t) = rbScan al true (d :: t) := by
  simp [rbScan, hd]

theorem rbScan_skip_nl_nil (al : List Char) : rbScan al true ['\n'] = [] := by
  simp [rbScan]

theorem rbScan_true_to_false {d : Char} (hd : wordChar d = true)
    (al t : List Char) :
    rbScan al true ('\n' :: d :: t) = rbScan al false ('\n' :: d :: t) := by
  simp [rbScan, hd]

theorem rbScan_skip_noNl (al : List Char) {u : List Char} (v : List Char)
    (hu : ∀ c ∈ u, ¬(c = '\n')) :
    rbScan al true (u ++ v) = rbScan al true v := by
  induction u with
  | nil => rfl
  | cons c u' ih =>
    rw [List.cons_append, rbScan_skip_not_nl (hu c (List.mem_cons_self _ _))]
    exact ih (fun c hc => hu c (List.mem_cons_of_mem _ hc))

theorem rbScan_emit_noNl (al : List Char) {u : List Char} (v : List Char)
    (hu : ∀ c ∈ u, ¬(c = '\n')) :
    rbScan al false (u ++ v) = u ++ rbScan al false v := by
  induction u with
  | nil => rfl
  | cons c u' ih =>
    have h0 : tryHeader al (c :: (u' ++ v)) = none :=
      tryHeader_not_nl (hu c (List.mem_cons_self _ _)) al _
    rw [List.cons_append, rbScan_false_cons, h0]
    simp only [Option.isSome_none, Bool.false_eq_true, if_false]
    rw [ih (fun c hc => hu c (List.mem_cons_of_mem _ hc)), List.cons_append]

theorem head?_append_left {α : Type} {a : List α} (b : List α) (h : a ≠ []) :
    (a ++ b).head? = a.head? := by
  cases a with
  | nil => exact absurd rfl h
  | cons x xs => rfl

theorem aliasOK_ne_nil {al : List Char} (h : aliasOK al = true) : al ≠ [] := by
  intro he
  subst he
  exact absurd h (by decide)

theorem aliasOK_word {al : List Char} (h : aliasOK al = true) :
    ∀ c ∈ al, wordChar c = true := by
  rw [aliasOK, Bool.and_eq_true] at h
  exact List.all_eq_true.mp h.2

theorem lineOK_parts {l : List Char} (h : lineOK l = true) :
    l ≠ [] ∧ wordChar (l.headD ' ') = false ∧ (∀ c ∈ l, ¬(c = '\n')) ∧
      isWS (l.getLastD ' ') = false := by
  simp only [lineOK, Bool.and_eq_true, Bool.not_eq_true'] at h
  obtain ⟨⟨⟨h1, h2⟩, h3⟩, h4⟩ := h
  refine ⟨?_, h2, ?_, h4⟩
  · intro he
    subst he
    simp at h1
  · intro c hc
    simpa using List.all_eq_true.mp h3 c hc

theorem stanzaOK_parts {s : Stanza} (h : stanzaOK s = true) :
    aliasOK s.hostAlias = true ∧ ∀ l ∈ s.body, lineOK l = true := by
  rw [stanzaOK, Bool.and_eq_true] at h
  exact ⟨h.1, List.all_eq_true.mp h.2⟩

theorem rbScan_emit_line (al : List Char) {l : List Char} (v : List Char)
    (hl : lineOK l = true) :
    rbScan al false (('\n' :: l) ++ v) = ('\n' :: l) ++ rbScan al false v := by
  obtain ⟨hne, hhead, hnl, _⟩ := lineOK_parts hl
  cases l with
  | nil => exact absurd rfl hne
  | cons c0 l0 =>
    have hw0 : wordChar c0 = false := hhead
    have hH : ¬(c0 = 'H') := by
      intro he
      rw [he] at hw0
      exact absurd hw0 (by decide)
    have h0 : tryHeader al ('\n' :: c0 :: (l0 ++ v)) = none := tryHeader_nl_not_H hH al _
    rw [List.cons_append, List.cons_append, rbScan_false_cons, h0]
    simp only [Option.isSome_none, Bool.false_eq_true, if_false]
    have hrest := rbScan_emit_noNl al (u := c0 :: l0) v hnl
    rw [List.cons_append] at hrest
    rw [hrest]
    simp

theorem rbScan_emit_body (al : List Char) {bs : List (List Char)} (v : List Char)
    (hb : ∀ l ∈ bs, lineOK l = true) :
    rbScan al false (renderBody bs ++ v) = renderBody bs ++ rbScan al false v := by
  induction bs with
  | nil => rfl
  | cons l bs' ih =>
    have h1 : renderBody (l :: bs') ++ v = ('\n' :: l) ++ (renderBody bs' ++ v) := by
      simp [renderBody]
    rw [h1, rbScan_emit_line al _ (hb l (List.mem_cons_self _ _)),
      ih (fun x hx => hb x (List.mem_cons_of_mem _ hx))]
    simp [renderBody]

theorem headerPre_noNl : ∀ c ∈ headerPre, ¬(c = '\n') := by decide

theorem rbScan_emit_stanza (al : List Char) {s : Stanza} (v : List Char)
    (hs : stanzaOK s = true) :
    rbScan al false (renderStanza s ++ v) = renderStanza s ++ rbScan al false v := by
  obtain ⟨ha, hb⟩ := stanzaOK_parts hs
  have hchars : ∀ c ∈ headerPre ++ s.hostAlias, ¬(c = '\n') := by
    intro c hc
    rcases List.mem_append.mp hc with h | h
    · exact headerPre_noNl c h
    · exact wordChar_ne_nl (aliasOK_word ha c h)
  have h1 : renderStanza s ++ v = (headerPre ++ s.hostAlias) ++ (renderBody s.body ++ v) := by
    simp [renderStanza, headerLine]
  rw [h1, rbScan_emit_noNl al _ hchars, rbScan_emit_body al _ hb]
  simp [renderStanza, headerLine]

theorem rbScan_skip_line (al : List Char) {l : List Char} (v : List Char)
    (hl : lineOK l = true) :
    rbScan al true (('\n' :: l) ++ v) = rbScan al true v := by
  obtain ⟨hne, hhead, hnl, _⟩ := lineOK_parts hl
  cases l with
  | nil => exact absurd rfl hne
  | cons c0 l0 =>
    have hw0 : wordChar c0 = false := hhead
    rw [List.cons_append, List.cons_append, rbScan_skip_nl_nonword hw0]
    have hrest := rbScan_skip_noNl al (u := c0 :: l0) v hnl
    rw [List.cons_append] at hrest
    exact hrest

theorem rbScan_skip_body (al : List Char) {bs : List (List Char)} (v : List Char)
    (hb : ∀ l ∈ bs, lineOK l = true) :
    rbScan al true (renderBody bs ++ v) = rbScan al true v := by
  induction bs with
  | nil => rfl
  | cons l bs' ih =>
    have h1 : renderBody (l :: bs') ++ v = ('\n' :: l) ++ (renderBody bs' ++ v) := by
      simp [renderBody]
    rw [h1, rbScan_skip_line al _ (hb l (List.mem_cons_self _ _))]
    exact ih (fun x hx => hb x (List.mem_cons_of_mem _ hx))

theorem lineOK_last {l : List Char} (h : lineOK l = true) :
    ∃ c, l.getLast? = some c ∧ isWS c = false := by
  obtain ⟨hne, _, _, h4⟩ := lineOK_parts h
  cases hl : l.getLast? with
  | some c =>
    refine ⟨c, rfl, ?_⟩
    rw [List.getLastD_eq_getLast?, hl] at h4
    exact h4
  | none => exact absurd (List.getLast?_eq_none_iff.mp hl) hne

theorem aliasOK_last {al : List Char} (h : aliasOK al = true) :
    ∃ c, al.getLast? = some c ∧ isWS c = false := by
  cases hl : al.getLast? with
  | some c =>
    exact ⟨c, rfl,
      wordChar_not_ws (aliasOK_word h c (List.mem_of_mem_getLast? hl))⟩
  | none => exact absurd (List.getLast?_eq_none_iff.mp hl) (aliasOK_ne_nil h)

theorem renderBody_ne_nil {l : List Char} (bs : List (List Char)) :
    renderBody (l :: bs) ≠ [] := by
  simp [renderBody]

theorem renderBody_last {bs : List (List Char)} (hne : bs ≠ [])
    (hb : ∀ l ∈ bs, lineOK l = true) :
    ∃ c, (renderBody bs).getLast? = some c ∧ isWS c = false := by
  induction bs with
  | nil => exact absurd rfl hne
  | cons l bs' ih =>
    cases bs' with
    | nil =>
      obtain ⟨c, hc, hcw⟩ := lineOK_last (hb l (List.mem_cons_self _ _))
      refine ⟨c, ?_, hcw⟩
      rw [show renderBody [l] = ['\n'] ++ l by simp [renderBody]]
      rw [List.getLast?_append_of_ne_nil ['\n']
        (lineOK_parts (hb l (List.mem_cons_self _ _))).1]
      exact hc
    | cons l2 bs2 =>
      obtain ⟨c, hc, hcw⟩ := ih (by simp) (fun x hx => hb x (List.mem_cons_of_mem _ hx))
      refine ⟨c, ?_, hcw⟩
      rw [show renderBody (l :: l2 :: bs2) = ('\n' :: l) ++ renderBody (l2 :: bs2) by
        simp [renderBody]]
      rw [List.getLast?_append_of_ne_nil _ (renderBody_ne_nil bs2)]
      exact hc

theorem renderStanza_last {s : Stanza} (hs : stanzaOK s = true) :
    ∃ c, (renderStanza s).getLast? = some c ∧ isWS c = false := by
  obtain ⟨ha, hb⟩ := stanzaOK_parts hs
  cases hbs : s.body with
  | nil =>
    obtain ⟨c, hc, hcw⟩ := aliasOK_last ha
    refine ⟨c, ?_, hcw⟩
    rw [renderStanza, hbs]
    rw [show renderBody ([] : List (List Char)) = [] from rfl, List.append_nil]
    rw [headerLine]
    rw [List.getLast?_append_of_ne_nil headerPre (aliasOK_ne_nil ha)]
    exact hc
  | cons l bs' =>
    obtain ⟨c, hc, hcw⟩ := @renderBody_last (l :: bs') (by simp)
      (by intro x hx; exact hb x (hbs ▸ hx))
    refine ⟨c, ?_, hcw⟩
    rw [renderStanza, hbs,
      List.getLast?_append_of_ne_nil _ (renderBody_ne_nil bs')]
    exact hc

theorem renderStanza_ne_nil (s : Stanza) : renderStanza s ≠ [] := by
  simp [renderStanza, headerLine, headerPre]

theorem renderTailF_ne_nil (s : Stanza) (ss : List Stanza) :
    renderTailF (s :: ss) ≠ [] := by
  simp [renderTailF]

theorem renderTailF_last {ss : List Stanza} (hne : ss ≠ [])
    (hs : ∀ s ∈ ss, stanzaOK s = true) :
    ∃ c, (renderTailF ss).getLast? = some c ∧ isWS c = false := by
  induction ss with
  | nil => exact absurd rfl hne
  | cons s ss' ih =>
    cases ss' with
    | nil =>
      obtain ⟨c, hc, hcw⟩ := renderStanza_last (hs s (List.mem_cons_self _ _))
      refine ⟨c, ?_, hcw⟩
      rw [show renderTailF [s] = ['\n'] ++ renderStanza s by simp [renderTailF]]
      rw [List.getLast?_append_of_ne_nil ['\n'] (renderStanza_ne_nil s)]
      exact hc
    | cons s2 ss2 =>
      obtain ⟨c, hc, hcw⟩ := ih (by simp) (fun x hx => hs x (List.mem_cons_of_mem _ hx))
      refine ⟨c, ?_, hcw⟩
      rw [show renderTailF (s :: s2 :: ss2)
          = ('\n' :: renderStanza s) ++ renderTailF (s2 :: ss2) by simp [renderTailF]]
      rw [List.getLast?_append_of_ne_nil _ (renderTailF_ne_nil s2 ss2)]
      exact hc

theorem dropWhile_eq_self_of_head {p : Char → Bool} {l : List Char} {c : Char}
    (h1 : l.head? = some c) (h2 : p c = false) : l.dropWhile p = l := by
  cases l with
  | nil => simp at h1
  | cons a l' =>
    obtain rfl : a = c := by simpa using h1
    simp [List.dropWhile_cons, h2]

theorem trimL_append_nl {x t : List Char}
    (hh : ∃ c, x.head? = some c ∧ isWS c = false)
    (hl : ∃ c, x.getLast? = some c ∧ isWS c = false)
    (ht : t = [] ∨ t = ['\n']) : trimL (x ++ t) = x := by
  obtain ⟨ch, hh1, hh2⟩ := hh
  obtain ⟨cl, hl1, hl2⟩ := hl
  have hx : x ≠ [] := by
    intro h
    rw [h] at hh1
    simp at hh1
  unfold trimL
  have h1 : (x ++ t).dropWhile isWS = x ++ t :=
    dropWhile_eq_self_of_head (by rw [head?_append_left t hx]; exact hh1) hh2
  rw [h1, List.reverse_append]
  have h2 : x.reverse.head? = some cl := by
    rw [List.head?_reverse]
    exact hl1
  rcases ht with rfl | rfl
  · simp only [List.reverse_nil, List.nil_append]
    rw [dropWhile_eq_self_of_head h2 hl2, List.reverse_reverse]
  · have h3 : (['\n'].reverse ++ x.reverse) = '\n' :: x.reverse := rfl
    rw [h3, List.dropWhile_cons]
    simp only [show isWS '\n' = true from rfl, if_true]
    rw [dropWhile_eq_self_of_head h2 hl2, List.reverse_reverse]

theorem renderTail_eq (ss : List Stanza) :
    renderTail ss = renderTailF ss ++ ['\n'] := by
  induction ss with
  | nil => rfl
  | cons s ss' ih => simp [renderTail, renderTailF] at ih ⊢; rw [ih]

theorem renderTail_head (ss : List Stanza) : (renderTail ss).head? = some '\n' := by
  cases ss <;> rfl

theorem renderTail_cons_shape (s : Stanza) (ss : List Stanza) :
    renderTail (s :: ss) =
      '\n' :: (headerPre ++ (s.hostAlias ++ (renderBody s.body ++ renderTail ss))) := by
  simp [renderTail, renderStanza, headerLine]

theorem bodyTail_head (bs : List (List Char)) (ss : List Stanza) :
    (renderBody bs ++ renderTail ss).head? = some '\n' := by
  cases bs with
  | nil => simpa [renderBody] using renderTail_head ss
  | cons l bs' => rfl

theorem rbScan_true_tail_cons (al : List Char) (s : Stanza) (ss : List Stanza) :
    rbScan al true (renderTail (s :: ss)) = rbScan al false (renderTail (s :: ss)) := by
  have h1 : renderTail (s :: ss)
      = '\n' :: 'H' :: ("ost github.com-".toList
          ++ (s.hostAlias ++ (renderBody s.body ++ renderTail ss))) := by
    rw [renderTail_cons_shape]
    rfl
  rw [h1, rbScan_true_to_false (by decide)]

theorem rbScan_tail (al : List Char) (hA : aliasOK al = true) :
    ∀ ss : List Stanza, (∀ s ∈ ss, stanzaOK s = true) →
      rbScan al false (renderTail ss)
          = renderTailF (ss.filter (keepStanza al)) ++ ['\n'] ∨
        rbScan al false (renderTail ss)
          = renderTailF (ss.filter (keepStanza al)) := by
  intro ss
  induction ss with
  | nil =>
    intro _
    left
    rw [show renderTail ([] : List Stanza) = ['\n'] from rfl]
    rw [rbScan_false_cons, tryHeader_nl_nil]
    simp [renderTailF, rbScan]
  | cons s ss' ih =>
    intro hwf
    have hs : stanzaOK s = true := hwf s (List.mem_cons_self _ _)
    have hss' : ∀ x ∈ ss', stanzaOK x = true :=
      fun x hx => hwf x (List.mem_cons_of_mem _ hx)
    rw [renderTail_cons_shape]
    by_cases hk : keepStanza al s = true
    · have h0 : tryHeader al
          ('\n' :: (headerPre ++ (s.hostAlias ++ (renderBody s.body ++ renderTail ss'))))
            = none := by
        rw [tryHeader_header]
        exact stripPre_word_none (aliasOK_word hA)
          (Option.isNone_iff_eq_none.mp hk) (bodyTail_head _ _)
      rw [rbScan_false_cons, h0]
      simp only [Option.isSome_none, Bool.false_eq_true, if_false]
      have hre : headerPre ++ (s.hostAlias ++ (renderBody s.body ++ renderTail ss'))
          = renderStanza s ++ renderTail ss' := by
        simp [renderStanza, headerLine]
      rw [hre, rbScan_emit_stanza al _ hs]
      have hfil : (s :: ss').filter (keepStanza al) = s :: ss'.filter (keepStanza al) := by
        simp [List.filter_cons, hk]
      rcases ih hss' with h | h
      · left
        rw [h, hfil]
        simp [renderTailF]
      · right
        rw [h, hfil]
        simp [renderTailF]
    · have hsome : ∃ r, stripPre al s.hostAlias = some r := by
        have hkn : ¬ (stripPre al s.hostAlias).isNone = true := by
          rwa [show keepStanza al s = (stripPre al s.hostAlias).isNone from rfl] at hk
        cases hsp : stripPre al s.hostAlias with
        | none => rw [hsp] at hkn; exact absurd rfl hkn
        | some r => exact ⟨r, rfl⟩
      obtain ⟨r, hr⟩ := hsome
      have hal2 : s.hostAlias = al ++ r := stripPre_eq_some.mp hr
      have h0 : (tryHeader al
          ('\n' :: (headerPre ++ (s.hostAlias ++ (renderBody s.body ++ renderTail ss'))))).isSome
            = true := by
        rw [tryHeader_header, hal2, List.append_assoc, stripPre_append]
        rfl
      rw [rbScan_false_cons, if_pos h0]
      have hchars : ∀ c ∈ headerPre ++ s.hostAlias, ¬(c = '\n') := by
        intro c hc
        rcases List.mem_append.mp hc with h | h
        · exact headerPre_noNl c h
        · exact wordChar_ne_nl (aliasOK_word (stanzaOK_parts hs).1 c h)
      have hre : headerPre ++ (s.hostAlias ++ (renderBody s.body ++ renderTail ss'))
          = (headerPre ++ s.hostAlias) ++ (renderBody s.body ++ renderTail ss') := by
        simp [List.append_assoc]
      rw [hre, rbScan_skip_noNl al _ hchars, rbScan_skip_body al _ (stanzaOK_parts hs).2]
      have hfil : (s :: ss').filter (keepStanza al) = ss'.filter (keepStanza al) := by
        simp [List.filter_cons, hk]
      rw [hfil]
      cases ss' with
      | nil =>
        right
        rw [show renderTail ([] : List Stanza) = ['\n'] from rfl, rbScan_skip_nl_nil]
        simp [renderTailF]
      | cons s2 ss2 =>
        rw [rbScan_true_tail_cons]
        exact ih hss'

theorem trimL_self {x : List Char}
    (hh : ∃ c, x.head? = some c ∧ isWS c = false)
    (hl : ∃ c, x.getLast? = some c ∧ isWS c = false) : trimL x = x := by
  have h := trimL_append_nl hh hl (Or.inl rfl)
  rwa [List.append_nil] at h

/-- C5 (amended): on a well-formed SSH config file — a first stanza at the
very start of the file and further stanzas each preceded by a newline —
removal with alias `A` deletes exactly the newline-preceded stanzas whose
alias has `A` as a literal prefix (so stanzas of other aliases extending
`A`, such as `A2`, are deleted too), each deletion extending to the next
word-initial line or end of file; the stanza at the start of the file is
never deleted, and all other stanzas survive unchanged. -/
theorem C5_theorem (A p : List Char) (hA : aliasOK A = true)
    (s0 : Stanza) (rest : List Stanza)
    (h0 : stanzaOK s0 = true) (hr : ∀ s ∈ rest, stanzaOK s = true) :
    updateSSHConfigFn A p true (renderConfig s0 rest) =
      renderConfig s0 (rest.filter (keepStanza A)) := by
  rw [updateSSHConfigFn, if_pos rfl, renderConfig, rbScan_emit_stanza A _ h0]
  have hh : ∃ c, (renderStanza s0 ++ renderTailF (rest.filter (keepStanza A))).head?
      = some c ∧ isWS c = false := by
    refine ⟨'H', ?_, by decide⟩
    rw [head?_append_left _ (renderStanza_ne_nil s0)]
    rfl
  have hl : ∃ c, (renderStanza s0 ++ renderTailF (rest.filter (keepStanza A))).getLast?
      = some c ∧ isWS c = false := by
    cases hk : rest.filter (keepStanza A) with
    | nil =>
      obtain ⟨c, hc, hw⟩ := renderStanza_last h0
      exact ⟨c, by
        rw [show renderTailF ([] : List Stanza) = [] from rfl, List.append_nil]
        exact hc, hw⟩
    | cons s2 ss2 =>
      obtain ⟨c, hc, hw⟩ := @renderTailF_last (s2 :: ss2) (by simp)
        (fun x hx => hr x (List.mem_of_mem_filter (hk ▸ hx)))
      exact ⟨c, by
        rw [List.getLast?_append_of_ne_nil _ (renderTailF_ne_nil s2 ss2)]
        exact hc, hw⟩
  rcases rbScan_tail A hA rest hr with h | h
  · rw [h]
    rw [show renderStanza s0 ++ (renderTailF (rest.filter (keepStanza A)) ++ ['\n'])
        = (renderStanza s0 ++ renderTailF (rest.filter (keepStanza A))) ++ ['\n'] from
      (List.append_assoc _ _ _).symm]
    rw [trimL_append_nl hh hl (Or.inr rfl)]
    rw [renderConfig, renderTail_eq, List.append_assoc]
  · rw [h, trimL_self hh hl]
    rw [renderConfig, renderTail_eq, List.append_assoc]

/-- C5 counterexample: a `Host github.com-jane` stanza at the very start of
the file is not preceded by a newline, so removal with alias `jane` leaves
the file unchanged (the claim requires every matching stanza deleted); and
removal with alias `jane` also deletes the stanza of the different alias
`jane2` (the claim requires other aliases' stanzas left in place). -/
theorem C5_counterexample :
    (updateSSHConfigFn "jane".toList [] true
        "Host github.com-jane\n    HostName github.com\n".toList
      = "Host github.com-jane\n    HostName github.com\n".toList) ∧
    stanzaCount "jane".toList
        (updateSSHConfigFn "jane".toList [] true
          "Host github.com-jane\n    HostName github.com\n".toList) = 1 ∧
    stanzaCount "jane2".toList
        "w: 1\nHost github.com-jane2\n    User git\n".toList = 1 ∧
    stanzaCount "jane2".toList
        (updateSSHConfigFn "jane".toList [] true
          "w: 1\nHost github.com-jane2\n    User git\n".toList) = 0 := by
  decide

/-- Witness for C5 at a concrete four-stanza file: removal with alias `a`
deletes the newline-preceded stanzas with aliases `a` and `ab`, keeps the
start-of-file stanza `x` and the unrelated stanza `b`. -/
theorem C5_witness :
    updateSSHConfigFn "a".toList [] true
        (renderConfig ⟨"x".toList, ["    User git".toList]⟩
          [⟨"a".toList, ["    User git".toList]⟩, ⟨"ab".toList, []⟩,
            ⟨"b".toList, []⟩])
      = renderConfig ⟨"x".toList, ["    User git".toList]⟩ [⟨"b".toList, []⟩] := by
  have h := C5_theorem "a".toList [] (by decide)
    ⟨"x".toList, ["    User git".toList]⟩
    [⟨"a".toList, ["    User git".toList]⟩, ⟨"ab".toList, []⟩, ⟨"b".toList, []⟩]
    (by decide) (by decide)
  rw [h]
  decide

/-- C1 counterexample: two `add` operations with the same alias — a legal
add/remove sequence from the empty registry — leave two live identities
sharing the alias `a`; `add` never checks alias uniqueness. -/
theorem C1_counterexample :
    ¬ (((PartOne.run []
          [.add ⟨"n1".toList, "e1".toList, "a".toList⟩ true true,
           .add ⟨"n2".toList, "e2".toList, "a".toList⟩ true true]
          ⟨PartOne.initialConfig, []⟩).cfg.users.map (fun u => u.«alias»)).Nodup) := by
  decide

/-- C1 (amended): for every sequence of `add`/`remove`/`change` operations
run from the empty registry whose `add` operations use pairwise-distinct
aliases, no two live identities share an alias. -/
theorem C1_theorem (sshDir ssh0 : List Char) (ops : List PartOne.Op)
    (h : (PartOne.addAliases ops).Nodup) :
    ((PartOne.run sshDir ops ⟨PartOne.initialConfig, ssh0⟩).cfg.users.map
      (fun u => u.«alias»)).Nodup :=
  PartOne.aliasNodup_run sshDir ops ⟨PartOne.initialConfig, ssh0⟩
    (by simpa [PartOne.initialConfig] using h)

/-- Witness for C1 at a concrete two-add sequence with distinct aliases. -/
theorem C1_witness :
    ((PartOne.run []
        [.add ⟨"n1".toList, "e1".toList, "a".toList⟩ true true,
         .add ⟨"n2".toList, "e2".toList, "b".toList⟩ true true]
        ⟨PartOne.initialConfig, []⟩).cfg.users.map (fun u => u.«alias»)).Nodup :=
  C1_theorem [] []
    [.add ⟨"n1".toList, "e1".toList, "a".toList⟩ true true,
     .add ⟨"n2".toList, "e2".toList, "b".toList⟩ true true]
    (by decide)

namespace BinMain

theorem saveGlobalGitConfig_users (c : Config) (g : GitState) :
    (saveGlobalGitConfig c g).cfg.users = c.users := by
  unfold saveGlobalGitConfig
  cases hg : g.globalCfg with
  | none => rfl
  | some p => obtain ⟨n, e⟩ := p; rfl

theorem setGitConfig_users (n e : List Char) (sc : Scope) (c : Config) (g : GitState) :
    (setGitConfig n e sc c g).cfg.users = c.users := by
  unfold setGitConfig
  by_cases h : c.globalConfig.isNone
  · simp [h, saveGlobalGitConfig_users]
  · simp [h]

end BinMain

/-- C6: in both variants, `add` assigns the new identity the id
`config.users.length + 1` (count of records plus one, not max id plus one);
consequently removing a non-last record and then adding reuses an existing
id, shown concretely by add, add, remove 1, add yielding ids `[2, 2]`. -/
theorem C6_theorem :
    (∀ (sshDir : List Char) (o : PartOne.AddOpts) (kE cG : Bool)
        (cfg : PartOne.Config) (ssh : List Char),
      (PartOne.addAction sshDir o kE cG cfg ssh).cfg.users =
        cfg.users ++
          [⟨(cfg.users.length : Int) + 1, o.name, o.email, o.«alias»,
            PartOne.keyPath sshDir o⟩]) ∧
    (∀ (sshDir name email : List Char) (uL kE cG : Bool)
        (cfg : BinMain.Config) (git : BinMain.GitState),
      (BinMain.addAction sshDir name email uL kE cG cfg git).cfg.users =
        cfg.users ++
          [⟨(cfg.users.length : Int) + 1, name, email,
            BinMain.keyPath sshDir name⟩]) ∧
    ((PartOne.run []
        [.add ⟨"a".toList, "a@x".toList, "a".toList⟩ true true,
         .add ⟨"b".toList, "b@x".toList, "b".toList⟩ true true,
         .remove "1".toList false false false,
         .add ⟨"c".toList, "c@x".toList, "c".toList⟩ true true]
        ⟨PartOne.initialConfig, []⟩).cfg.users.map PartOne.User.id = [2, 2]) := by
  refine ⟨fun _ _ _ _ _ _ => rfl, ?_, by decide⟩
  intro sshDir name email uL kE cG cfg git
  by_cases hA : truthy cfg.activeUser
  · simp [BinMain.addAction, hA]
  · simp only [Bool.not_eq_true] at hA
    simp [BinMain.addAction, hA, BinMain.setGitConfig_users]

/-- C4: `setGitConfig` of `src/bin/gitmt.js` snapshots the pre-existing
global `user.name`/`user.email` into `config.globalConfig` whenever that
field is still null (as it is in a fresh registry), before the overwrite;
once a snapshot exists it is never overwritten; when no global git identity
exists, the snapshot fails softly — an informational log, nothing stored,
no error — and the overwrite still proceeds. -/
theorem C4_theorem (name email : List Char) (scope : BinMain.Scope)
    (cfg : BinMain.Config) (git : BinMain.GitState) :
    BinMain.initialConfig.globalConfig = none ∧
    (∀ n e, cfg.globalConfig = none → git.globalCfg = some (n, e) →
      (BinMain.setGitConfig name email scope cfg git).cfg.globalConfig = some ⟨n, e⟩ ∧
      (BinMain.setGitConfig name email scope cfg git).out = [] ∧
      (BinMain.setGitConfig name email scope cfg git).writes =
        [.registry ⟨cfg.users, cfg.activeUser, some ⟨n, e⟩⟩,
          .gitUserName scope name, .gitUserEmail scope email]) ∧
    (cfg.globalConfig = none → git.globalCfg = none →
      (BinMain.setGitConfig name email scope cfg git).cfg = cfg ∧
      (BinMain.setGitConfig name email scope cfg git).out = [.noGlobalGitConfig] ∧
      (BinMain.setGitConfig name email scope cfg git).crashed = false ∧
      (BinMain.setGitConfig name email scope cfg git).writes =
        [.gitUserName scope name, .gitUserEmail scope email]) ∧
    (∀ g0, cfg.globalConfig = some g0 →
      (BinMain.setGitConfig name email scope cfg git).cfg = cfg) ∧
    ((BinMain.setGitConfig name email scope cfg git).git.globalCfg =
      match scope with
      | .global => some (name, email)
      | .loc => git.globalCfg) := by
  refine ⟨rfl, ?_, ?_, ?_, ?_⟩
  · intro n e hc hg
    refine ⟨?_, ?_, ?_⟩ <;>
      simp [BinMain.setGitConfig, BinMain.saveGlobalGitConfig, hc, hg]
  · intro hc hg
    refine ⟨?_, ?_, ?_, ?_⟩ <;>
      simp [BinMain.setGitConfig, BinMain.saveGlobalGitConfig, hc, hg]
  · intro g0 hc
    simp [BinMain.setGitConfig, hc]
  · cases scope <;> simp [BinMain.setGitConfig]

/-- Witness for C4 at concrete values: a fresh registry, an existing global
identity, and a fresh registry with no global identity. -/
theorem C4_witness :
    (BinMain.setGitConfig "New".toList "n@x".toList .global BinMain.initialConfig
        ⟨some ("Old".toList, "o@x".toList), none⟩).cfg.globalConfig =
      some ⟨"Old".toList, "o@x".toList⟩ ∧
    (BinMain.setGitConfig "New".toList "n@x".toList .global BinMain.initialConfig
        ⟨none, none⟩).out = [.noGlobalGitConfig] := by
  have h1 := C4_theorem "New".toList "n@x".toList .global BinMain.initialConfig
    ⟨some ("Old".toList, "o@x".toList), none⟩
  have h2 := C4_theorem "New".toList "n@x".toList .global BinMain.initialConfig
    ⟨none, none⟩
  exact ⟨(h1.2.1 "Old".toList "o@x".toList rfl rfl).1, (h2.2.2.1 rfl rfl).2.1⟩

/-- Witness for C10 at the concrete argument `"abc"` and a one-user registry. -/
theorem C10_witness :
    PartOne.removeAction "abc".toList false false false
        ⟨[⟨1, "a".toList, "a@x".toList, "a".toList, "p".toList⟩], some 1⟩ [] =
      ⟨⟨[⟨1, "a".toList, "a@x".toList, "a".toList, "p".toList⟩], some 1⟩,
        [], [], [], [], [], [.noUserFound none], false⟩ := by
  have h := C10_theorem "abc".toList (by decide)
  exact h.1 false false false
    ⟨[⟨1, "a".toList, "a@x".toList, "a".toList, "p".toList⟩], some 1⟩ []

end Gitmt
